import Mathlib

/-!
A verification development for the IRC channel-ACL reconciliation bot
(`ircservserv`).  The definitions below are a shallow embedding of the
Rust sources:

* `src/channel.rs` — the pure diff engine (`fix_flags`, `fix_modes`,
  `FlagChange::to_mode`), the flag parser (`parse_flags`) and the
  ChanServ report-line ingester (`add_flags_from_chanserv`);
* `src/chanserv.rs` — the per-notice processing step of `chanserv::listen`;
* `src/command.rs` — the authorization prefix of `iss_sync` and
  `must_be_in_channel`.

Modelling conventions:
* Rust `HashSet<char>` values are modelled as `Finset Char` (Rust `==` on
  hash sets is extensional set equality, as is `Finset` equality).
* Rust `HashSet<String>` values that are only iterated are modelled as
  `List String`: one fixed iteration order of the hash set.  Hash sets that
  are only tested for membership (`bans`) are `Finset String`.
* Rust `HashMap<String, V>` is an association list `List (String × V)`;
  `entry(k).or_default()` followed by a mutation `f` is `upsert m k default f`
  (update the existing entry in place, else append a fresh one), which
  preserves the map's key-uniqueness and realizes one iteration order.
* Fallible functions return `Except ParseErr`; the `anyhow` error text
  is replaced by a structured constructor carrying the offending line.
-/

/-! ## Constants (src/channel.rs lines 9-20) -/

/-- `FOUNDER`: the access letters granted to the `founders` tier. -/
def FOUNDER : Finset Char :=
  {'A', 'F', 'R', 'e', 'f', 'i', 'o', 'r', 's', 't', 'v'}

/-- `CRAT`: the access letters granted to the `crats` tier. -/
def CRAT : Finset Char := {'A', 'f', 'i', 'o', 'r', 't', 'v'}

/-- `OP`: the access letters granted to the `ops` tier. -/
def OP : Finset Char := {'A', 'i', 'o', 't', 'v'}

/-- `PLUS_O`: the access letters granted to the `plus_o` tier. -/
def PLUS_O : Finset Char := {'o'}

/-- `AUTOVOICE`: the access letters granted to the `autovoice` tier. -/
def AUTOVOICE : Finset Char := {'V', 'v'}

/-- `GLOBAL_BANS`: the fixed shared ban mask. -/
def GLOBAL_BANS : String := "$j:#wikimedia-bans"

/-- `LIBERA_STAFF`: the staff hostmask granted `+o` by the `libera_staff` toggle. -/
def LIBERA_STAFF : String := "*!*@libera/staff/*"

/-- `LITHARGE`: the litharge bot account granted `+o` by the `libera_staff` toggle. -/
def LITHARGE : String := "litharge"

/-- `WMOPBOT`: the wmopbot account granted `+ot` by the `wmopbot` toggle. -/
def WMOPBOT : String := "wmopbot"

/-! ## Data model (src/channel.rs lines 33-79) -/

/-- `fn parse_flags(input: &str) -> HashSet<char>`: every character of the
input except `+` and `-` becomes a member of the set. -/
def parse_flags (input : String) : Finset Char :=
  input.toList.foldl (fun set c => if c = '+' ∨ c = '-' then set else insert c set) ∅

/-- `struct ConfiguredChannel`: the desired state loaded from channel config. -/
structure ConfiguredChannel where
  founders : List String := []
  crats : List String := []
  ops : List String := []
  plus_o : List String := []
  autovoice : List String := []
  global_bans : Bool := false
  libera_staff : Bool := false
  wmopbot : Bool := false
  invexes : List String := []
deriving DecidableEq

/-- `struct ManagedChannel`: the live state accumulated from IRC responses. -/
structure ManagedChannel where
  bans : Finset String := ∅
  invexes : Finset String := ∅
  current : List (String × Finset Char) := []
  flags_done : Bool := false
  bans_done : Bool := false
  invexes_done : Bool := false
deriving DecidableEq

/-- `ManagedChannel::is_done`. -/
def ManagedChannel.is_done (mc : ManagedChannel) : Bool :=
  mc.flags_done && mc.bans_done && mc.invexes_done

/-- `struct FlagChange` (src/channel.rs lines 75-79), with Rust's
`Default`-derived empty sets. -/
structure FlagChange where
  current : Finset Char := ∅
  should : Finset Char := ∅
deriving DecidableEq

/-- The ascending code-point ordering of a character set (Rust
`Vec::sort_unstable` applied to the collected set).  Implemented by
insertion sort, which is invariant under permutation of the underlying
multiset because a sorted permutation is unique. -/
def sortedChars (s : Finset Char) : List Char :=
  Quotient.liftOn s.val (List.insertionSort (· ≤ ·)) fun _ _ h =>
    List.eq_of_perm_of_sorted
      (((List.perm_insertionSort _ _).trans h).trans (List.perm_insertionSort _ _).symm)
      (List.sorted_insertionSort _ _) (List.sorted_insertionSort _ _)

/-- `FlagChange::to_mode` (src/channel.rs lines 82-106): `None` when the two
sets agree; otherwise the `-`-then-`+` mode string over sorted letters,
either sign omitted when its letter list is empty. -/
def FlagChange.to_mode (fc : FlagChange) : Option String :=
  if fc.current = fc.should then none
  else
    let remove : List Char := sortedChars (fc.current \ fc.should)
    let add : List Char := sortedChars (fc.should \ fc.current)
    let mode : List Char :=
      (if remove.isEmpty then [] else '-' :: remove) ++
      (if add.isEmpty then [] else '+' :: add)
    some (String.mk mode)

/-! ## Association-list primitives (model of `HashMap` operations) -/

/-- Lookup in an association list (model of `HashMap::get`). -/
def alookup {β : Type} : List (String × β) → String → Option β
  | [], _ => none
  | (k0, v) :: rest, k => if k0 = k then some v else alookup rest k

/-- Model of `map.entry(k).or_default()` followed by mutating the entry with
`f`: update the first entry with key `k` in place, else append `(k, f d)`. -/
def upsert {β : Type} : List (String × β) → String → β → (β → β) → List (String × β)
  | [], k, d, f => [(k, f d)]
  | (k0, v) :: rest, k, d, f =>
      if k0 = k then (k0, f v) :: rest else (k0, v) :: upsert rest k d f

/-! ## The diff engine: `ManagedChannel::fix_flags` (src/channel.rs 114-185) -/

/-- `changes.entry(name).or_default().current.extend(flags)`. -/
def addCurrent (flags : Finset Char) (fc : FlagChange) : FlagChange :=
  { fc with current := fc.current ∪ flags }

/-- `changes.entry(name).or_default().should.extend(letters)`. -/
def addShould (letters : Finset Char) (fc : FlagChange) : FlagChange :=
  { fc with should := fc.should ∪ letters }

/-- The first loop of `fix_flags`: seed `current` from `self.current`. -/
def seedCurrent (entries : List (String × Finset Char))
    (m : List (String × FlagChange)) : List (String × FlagChange) :=
  entries.foldl (fun m p => upsert m p.1 {} (addCurrent p.2)) m

/-- One tier loop of `fix_flags`: `for name in &cfg.<tier> { ... should.extend(letters) }`. -/
def extendShould (letters : Finset Char) (names : List String)
    (m : List (String × FlagChange)) : List (String × FlagChange) :=
  names.foldl (fun m name => upsert m name {} (addShould letters)) m

/-- The `if cfg.libera_staff` block of `fix_flags`: grant `PLUS_O` to the
staff hostmask and to litharge. -/
def applyLibera (cfg : ConfiguredChannel) (m : List (String × FlagChange)) :
    List (String × FlagChange) :=
  if cfg.libera_staff then
    upsert (upsert m LIBERA_STAFF {} (addShould PLUS_O)) LITHARGE {} (addShould PLUS_O)
  else m

/-- The `if cfg.wmopbot` block of `fix_flags`: grant `o`,`t` to wmopbot. -/
def applyWmopbot (cfg : ConfiguredChannel) (m : List (String × FlagChange)) :
    List (String × FlagChange) :=
  if cfg.wmopbot then upsert m WMOPBOT {} (addShould {'o', 't'}) else m

/-- The `changes` map that `fix_flags` builds before emitting mode strings:
the seed loop over `self.current`, the five tier loops, and the
`libera_staff` / `wmopbot` injected grants, in source order. -/
def buildChanges (mc : ManagedChannel) (cfg : ConfiguredChannel) :
    List (String × FlagChange) :=
  applyWmopbot cfg (applyLibera cfg
    (extendShould AUTOVOICE cfg.autovoice
      (extendShould PLUS_O cfg.plus_o
        (extendShould OP cfg.ops
          (extendShould CRAT cfg.crats
            (extendShould FOUNDER cfg.founders
              (seedCurrent mc.current [])))))))

/-- `ManagedChannel::fix_flags`: build the changes map, then
`filter_map(|(username, change)| change.to_mode().map(|mode| (username, mode)))`. -/
def ManagedChannel.fix_flags (mc : ManagedChannel) (cfg : ConfiguredChannel) :
    List (String × String) :=
  (buildChanges mc cfg).filterMap fun p => (p.2.to_mode).map fun mode => (p.1, mode)

/-! ## `ManagedChannel::fix_modes` (src/channel.rs 187-196) -/

/-- The two channel modes the program ever mentions. -/
inductive ChanMode
  | ban
  | inviteException
deriving DecidableEq

/-- `irc::proto::Mode<ChannelMode>`, restricted to the shapes the program uses. -/
inductive ModeCmd
  | plus (mode : ChanMode) (arg : Option String)
  | minus (mode : ChanMode) (arg : Option String)
deriving DecidableEq

/-- `ManagedChannel::fix_modes`: the single conditional on the global-bans mask. -/
def ManagedChannel.fix_modes (mc : ManagedChannel) (cfg : ConfiguredChannel) :
    List ModeCmd :=
  if cfg.global_bans = true ∧ GLOBAL_BANS ∉ mc.bans then
    [ModeCmd.plus ChanMode.ban (some GLOBAL_BANS)]
  else if cfg.global_bans = false ∧ GLOBAL_BANS ∈ mc.bans then
    [ModeCmd.minus ChanMode.ban (some GLOBAL_BANS)]
  else []

/-! ## The report-line parser: `add_flags_from_chanserv` (src/channel.rs 198-214)

The Rust regex is `^[0-9]+\s+([^\s]+)\s+\+([A-z]+)`.  Each block below is
forced: every `+`-quantified class is followed by a character that cannot
belong to it ( digits / whitespace / non-whitespace / whitespace / the
literal plus ), so the leftmost-greedy match consumes exactly the maximal
run of each class, and the final `[A-z]+` capture is the maximal run after
the literal `+`.  The parser below realizes exactly that. -/

/-- The character class `[0-9]`. -/
def isDigit09 (c : Char) : Bool := decide (48 ≤ c.toNat ∧ c.toNat ≤ 57)

/-- The regex crate's Unicode `\s` class (the White_Space code points). -/
def isRegexSpace (c : Char) : Bool :=
  decide ((9 ≤ c.toNat ∧ c.toNat ≤ 13) ∨ c.toNat = 32 ∨ c.toNat = 133 ∨
    c.toNat = 160 ∨ c.toNat = 5760 ∨ (8192 ≤ c.toNat ∧ c.toNat ≤ 8202) ∨
    c.toNat = 8232 ∨ c.toNat = 8233 ∨ c.toNat = 8239 ∨ c.toNat = 8287 ∨
    c.toNat = 12288)

/-- The (buggy) character class `[A-z]`: code points 65..122, which is
`A`-`Z`, the six punctuation characters between, and `a`-`z`. -/
def isAz (c : Char) : Bool := decide (65 ≤ c.toNat ∧ c.toNat ≤ 122)

/-- The two capture groups of `^[0-9]+\s+([^\s]+)\s+\+([A-z]+)` on a line,
or `none` when the regex does not match. -/
def captureChanserv (line : String) : Option (String × String) :=
  let l := line.toList
  let ds := l.takeWhile isDigit09
  let r1 := l.dropWhile isDigit09
  if ds.isEmpty then none else
  let w1 := r1.takeWhile isRegexSpace
  let r2 := r1.dropWhile isRegexSpace
  if w1.isEmpty then none else
  let ac := r2.takeWhile fun c => !isRegexSpace c
  let r3 := r2.dropWhile fun c => !isRegexSpace c
  if ac.isEmpty then none else
  let w2 := r3.takeWhile isRegexSpace
  let r4 := r3.dropWhile isRegexSpace
  if w2.isEmpty then none else
  match r4 with
  | c :: r5 =>
      if c = '+' then
        let ls := r5.takeWhile isAz
        if ls.isEmpty then none else some (String.mk ac, String.mk ls)
      else none
  | [] => none

/-- The parse error of `add_flags_from_chanserv` (`anyhow!("Couldn..t parse: {}", line)`).
The source's second error branch (`caps.len() < 3`) is unreachable: the regex
has exactly two groups and both participate in every match, so `caps.len()`
is always 3; the model therefore has a single error constructor. -/
inductive ParseErr
  | couldNotParse (line : String)
deriving DecidableEq

deriving instance DecidableEq for Except

/-- `HashMap::insert`: replace the value of an existing key, else append. -/
def insertKV (m : List (String × Finset Char)) (k : String) (v : Finset Char) :
    List (String × Finset Char) :=
  upsert m k ∅ fun _ => v

/-- `ManagedChannel::add_flags_from_chanserv`: on a regex match, insert the
parsed letter set for the captured account into `current`; otherwise fail. -/
def ManagedChannel.add_flags_from_chanserv (mc : ManagedChannel) (line : String) :
    Except ParseErr ManagedChannel :=
  match captureChanserv line with
  | some (account, letters) =>
      .ok { mc with current := insertKV mc.current account (parse_flags letters) }
  | none => .error (.couldNotParse line)

/-! ## The ChanServ listener step (src/chanserv.rs 45-71)

`chanserv::listen`'s `Message::Notice` arm, as a pure state transition.
The shared `BotState.chanserv` slot only ever holds `Message::Flags(channel)`
when non-empty, so the model stores the channel name directly. -/

/-- `str::starts_with`, on the character lists. -/
def strStartsWith (s pre : String) : Bool := pre.toList.isPrefixOf s.toList

/-- The shared bot state seen by the listener. -/
structure BotState where
  chanserv : Option String := none
  channels : List (String × ManagedChannel) := []
deriving DecidableEq

/-- The outcome of processing one notice: the next state, the parse error
passed to `dbg!` if any, and whether the step hit the `.unwrap()` panic in
the `End of` branch (`w.channels.get_mut(channel).unwrap()`). -/
structure StepResult where
  state : BotState
  logged : Option ParseErr := none
  panicked : Bool := false
deriving DecidableEq

/-- One `Message::Notice(notice)` iteration of `chanserv::listen`:
skip the dashed rule and the column-header lines; otherwise, when a flags
query is outstanding, either finish it on an `End of` line or feed the line
to `add_flags_from_chanserv` on the queried channel's accumulator
(created on demand by `entry(..).or_default()`), logging any parse error. -/
def listenNotice (st : BotState) (notice : String) : StepResult :=
  if strStartsWith notice "--------------" || strStartsWith notice "Entry    Nickname/Host" then
    { state := st }
  else
    match st.chanserv with
    | some channel =>
        if strStartsWith notice "End of" then
          match alookup st.channels channel with
          | some _ =>
              { state :=
                  { chanserv := none,
                    channels :=
                      upsert st.channels channel {} fun m => { m with flags_done := true } } }
          | none => { state := st, panicked := true }
        else
          match ((alookup st.channels channel).getD {}).add_flags_from_chanserv notice with
          | .ok mc2 =>
              { state := { st with channels := upsert st.channels channel {} fun _ => mc2 } }
          | .error e =>
              { state := { st with channels := upsert st.channels channel {} fun m => m },
                logged := some e }
    | none => { state := st }

/-- Processing a whole list of notices (the states only). -/
def listenNotices (st : BotState) (lines : List String) : BotState :=
  lines.foldl (fun s n => (listenNotice s n).state) st

/-! ## Semantic characterization of the changes map

`buildChanges` is a sequence of folds of `upsert`; the lemmas below recover
its pointwise content: for every account, the accumulated `current` set is
the union of that account's live entries, and the accumulated `should` set is
the union of the letter sets of the tiers the account belongs to. -/

/-- The keys of an association list. -/
def keysOf {β : Type} (m : List (String × β)) : List String := m.map Prod.fst

/-- The union of the sets an association list holds for one key. -/
def unionAt : List (String × Finset Char) → String → Finset Char
  | [], _ => ∅
  | p :: rest, a => if p.1 = a then p.2 ∪ unionAt rest a else unionAt rest a

/-- The letter set the live state holds for an account (`∅` when absent;
the recorded entry itself when, as for a `HashMap`, keys are unique). -/
def currentAt (mc : ManagedChannel) (a : String) : Finset Char := unionAt mc.current a

/-- The desired letter set `fix_flags` accumulates for an account: the union
of the fixed letter sets of every tier the account belongs to, together with
the `libera_staff` and `wmopbot` injected grants. -/
def shouldFor (cfg : ConfiguredChannel) (a : String) : Finset Char :=
  ((((((if a ∈ cfg.founders then FOUNDER else ∅) ∪
    (if a ∈ cfg.crats then CRAT else ∅)) ∪
    (if a ∈ cfg.ops then OP else ∅)) ∪
    (if a ∈ cfg.plus_o then PLUS_O else ∅)) ∪
    (if a ∈ cfg.autovoice then AUTOVOICE else ∅)) ∪
    (if cfg.libera_staff = true ∧ (a = LIBERA_STAFF ∨ a = LITHARGE) then PLUS_O else ∅)) ∪
    (if cfg.wmopbot = true ∧ a = WMOPBOT then ({'o', 't'} : Finset Char) else ∅)

theorem alookup_upsert_self {β : Type} (m : List (String × β)) (k : String) (d : β)
    (f : β → β) : alookup (upsert m k d f) k = some (f ((alookup m k).getD d)) := by
  induction m with
  | nil => simp [upsert, alookup]
  | cons p rest ih =>
    obtain ⟨k0, v⟩ := p
    by_cases h : k0 = k
    · subst h; simp [upsert, alookup]
    · simp [upsert, alookup, h, ih]

theorem alookup_upsert_ne {β : Type} (m : List (String × β)) (k : String) (d : β)
    (f : β → β) (a : String) (h : a ≠ k) : alookup (upsert m k d f) a = alookup m a := by
  have h' : ¬ k = a := fun he => h he.symm
  induction m with
  | nil => simp [upsert, alookup, h']
  | cons p rest ih =>
    obtain ⟨k0, v⟩ := p
    by_cases h0 : k0 = k
    · subst h0; simp [upsert, alookup, h']
    · simp [upsert, alookup, h0, ih]

theorem keys_upsert {β : Type} (m : List (String × β)) (k : String) (d : β) (f : β → β) :
    keysOf (upsert m k d f) = if k ∈ keysOf m then keysOf m else keysOf m ++ [k] := by
  induction m with
  | nil => simp [upsert, keysOf]
  | cons p rest ih =>
    obtain ⟨k0, v⟩ := p
    by_cases h : k0 = k
    · subst h; simp [upsert, keysOf]
    · have h' : ¬ k = k0 := fun he => h he.symm
      simp only [upsert, if_neg h, keysOf, List.map_cons] at ih ⊢
      rw [ih]
      by_cases hk : k ∈ List.map Prod.fst rest <;> simp [hk, h']

theorem mem_keys_upsert {β : Type} (m : List (String × β)) (k : String) (d : β)
    (f : β → β) (a : String) : a ∈ keysOf (upsert m k d f) ↔ a = k ∨ a ∈ keysOf m := by
  rw [keys_upsert]
  by_cases hk : k ∈ keysOf m
  · simp only [if_pos hk]
    constructor
    · exact fun h => Or.inr h
    · rintro (rfl | h) <;> [exact hk; exact h]
  · simp [if_neg hk, or_comm]

theorem nodup_keys_upsert {β : Type} (m : List (String × β)) (k : String) (d : β)
    (f : β → β) (h : (keysOf m).Nodup) : (keysOf (upsert m k d f)).Nodup := by
  rw [keys_upsert]
  by_cases hk : k ∈ keysOf m
  · simpa [hk] using h
  · rw [if_neg hk]
    refine List.nodup_append.mpr ⟨h, List.nodup_singleton _, ?_⟩
    intro x hx hxk
    rw [List.mem_singleton] at hxk
    exact hk (hxk ▸ hx)

theorem alookup_eq_none {β : Type} (m : List (String × β)) (a : String) :
    alookup m a = none ↔ a ∉ keysOf m := by
  induction m with
  | nil => simp [alookup, keysOf]
  | cons p rest ih =>
    obtain ⟨k0, v⟩ := p
    by_cases h : k0 = a
    · subst h; simp [alookup, keysOf]
    · have h' : ¬ a = k0 := fun he => h he.symm
      simp [alookup, keysOf, h, h', ih]

theorem mem_of_alookup_eq_some {β : Type} (m : List (String × β)) (a : String) (b : β)
    (h : alookup m a = some b) : (a, b) ∈ m := by
  induction m with
  | nil => simp [alookup] at h
  | cons p rest ih =>
    obtain ⟨k0, v⟩ := p
    by_cases hk : k0 = a
    · subst hk
      rw [alookup, if_pos rfl] at h
      obtain rfl : v = b := by simpa using h
      exact List.mem_cons.mpr (Or.inl rfl)
    · rw [alookup, if_neg hk] at h
      exact List.mem_cons.mpr (Or.inr (ih h))

theorem alookup_eq_some_of_mem {β : Type} (m : List (String × β))
    (h : (keysOf m).Nodup) (a : String) (b : β) (hm : (a, b) ∈ m) :
    alookup m a = some b := by
  induction m with
  | nil => simp at hm
  | cons p rest ih =>
    obtain ⟨k0, v⟩ := p
    simp only [keysOf, List.map_cons, List.nodup_cons] at h
    rcases List.mem_cons.mp hm with heq | hm2
    · cases heq
      rw [alookup, if_pos rfl]
    · have hk : ¬ k0 = a := by
        intro he
        apply h.1
        have : a ∈ List.map Prod.fst rest := List.mem_map_of_mem Prod.fst hm2
        rw [he]
        exact this
      rw [alookup, if_neg hk]
      exact ih h.2 hm2

theorem unionAt_of_not_mem (m : List (String × Finset Char)) (a : String)
    (h : a ∉ keysOf m) : unionAt m a = ∅ := by
  induction m with
  | nil => rfl
  | cons p rest ih =>
    simp only [keysOf, List.map_cons, List.mem_cons, not_or] at h
    have h1 : ¬ p.1 = a := fun he => h.1 he.symm
    simp [unionAt, h1, ih (by simpa [keysOf] using h.2)]

theorem alookup_extendShould (L : Finset Char) (ns : List String)
    (m : List (String × FlagChange)) (a : String) :
    alookup (extendShould L ns m) a =
      if a ∈ ns then some (addShould L ((alookup m a).getD {})) else alookup m a := by
  induction ns generalizing m with
  | nil => simp [extendShould]
  | cons n ns ih =>
    have hstep : extendShould L (n :: ns) m = extendShould L ns (upsert m n {} (addShould L)) := rfl
    rw [hstep, ih]
    by_cases hn : a = n
    · subst hn
      by_cases hm : a ∈ ns <;>
        simp [hm, alookup_upsert_self, addShould, Finset.union_assoc]
    · by_cases hm : a ∈ ns <;>
        simp [hm, hn, alookup_upsert_ne m n {} (addShould L) a hn]

theorem alookup_seedCurrent (es : List (String × Finset Char))
    (m : List (String × FlagChange)) (a : String) :
    alookup (seedCurrent es m) a =
      if a ∈ keysOf es then some (addCurrent (unionAt es a) ((alookup m a).getD {}))
      else alookup m a := by
  induction es generalizing m with
  | nil => simp [seedCurrent, keysOf]
  | cons p es ih =>
    obtain ⟨k, s⟩ := p
    have hstep : seedCurrent ((k, s) :: es) m = seedCurrent es (upsert m k {} (addCurrent s)) := rfl
    rw [hstep, ih]
    by_cases hk : a = k
    · subst hk
      have hhead : a ∈ keysOf ((a, s) :: es) := by simp [keysOf]
      rw [if_pos hhead]
      by_cases hm : a ∈ keysOf es
      · rw [if_pos hm, alookup_upsert_self]
        simp [addCurrent, unionAt, Finset.union_assoc]
      · rw [if_neg hm, alookup_upsert_self]
        simp [addCurrent, unionAt, unionAt_of_not_mem es a hm]
    · have hk' : ¬ k = a := fun he => hk he.symm
      have hmem : a ∈ keysOf ((k, s) :: es) ↔ a ∈ keysOf es := by simp [keysOf, hk]
      rw [alookup_upsert_ne m k {} (addCurrent s) a hk]
      by_cases hm : a ∈ keysOf es
      · rw [if_pos hm, if_pos (hmem.mpr hm)]
        simp [unionAt, hk']
      · rw [if_neg hm, if_neg (fun hc => hm (hmem.mp hc))]

theorem current_getD_upsert_addShould (m : List (String × FlagChange)) (k : String)
    (L : Finset Char) (a : String) :
    ((alookup (upsert m k {} (addShould L)) a).getD {}).current =
      ((alookup m a).getD {}).current := by
  by_cases h : a = k
  · subst h
    rw [alookup_upsert_self]
    simp [addShould]
  · rw [alookup_upsert_ne m k {} (addShould L) a h]

theorem should_getD_upsert_addShould (m : List (String × FlagChange)) (k : String)
    (L : Finset Char) (a : String) :
    ((alookup (upsert m k {} (addShould L)) a).getD {}).should =
      ((alookup m a).getD {}).should ∪ (if a = k then L else ∅) := by
  by_cases h : a = k
  · subst h
    rw [alookup_upsert_self]
    simp [addShould]
  · rw [alookup_upsert_ne m k {} (addShould L) a h]
    simp [h]

theorem current_getD_extendShould (L : Finset Char) (ns : List String)
    (m : List (String × FlagChange)) (a : String) :
    ((alookup (extendShould L ns m) a).getD {}).current =
      ((alookup m a).getD {}).current := by
  rw [alookup_extendShould]
  by_cases h : a ∈ ns <;> simp [h, addShould]

theorem should_getD_extendShould (L : Finset Char) (ns : List String)
    (m : List (String × FlagChange)) (a : String) :
    ((alookup (extendShould L ns m) a).getD {}).should =
      ((alookup m a).getD {}).should ∪ (if a ∈ ns then L else ∅) := by
  rw [alookup_extendShould]
  by_cases h : a ∈ ns <;> simp [h, addShould]

theorem current_getD_seedCurrent (es : List (String × Finset Char)) (a : String) :
    ((alookup (seedCurrent es []) a).getD {}).current = unionAt es a := by
  rw [alookup_seedCurrent]
  by_cases h : a ∈ keysOf es
  · simp [h, addCurrent, alookup]
  · simp [h, alookup, unionAt_of_not_mem es a h]

theorem should_getD_seedCurrent (es : List (String × Finset Char)) (a : String) :
    ((alookup (seedCurrent es []) a).getD {}).should = ∅ := by
  rw [alookup_seedCurrent]
  by_cases h : a ∈ keysOf es <;> simp [h, addCurrent, alookup]

theorem current_getD_applyLibera (cfg : ConfiguredChannel)
    (m : List (String × FlagChange)) (a : String) :
    ((alookup (applyLibera cfg m) a).getD {}).current =
      ((alookup m a).getD {}).current := by
  unfold applyLibera
  split
  · rw [current_getD_upsert_addShould, current_getD_upsert_addShould]
  · rfl

theorem should_getD_applyLibera (cfg : ConfiguredChannel)
    (m : List (String × FlagChange)) (a : String) :
    ((alookup (applyLibera cfg m) a).getD {}).should =
      ((alookup m a).getD {}).should ∪
        (if cfg.libera_staff = true ∧ (a = LIBERA_STAFF ∨ a = LITHARGE) then PLUS_O else ∅) := by
  unfold applyLibera
  by_cases hls : cfg.libera_staff = true
  · have hne : LIBERA_STAFF ≠ LITHARGE := by decide
    rw [if_pos hls, should_getD_upsert_addShould, should_getD_upsert_addShould,
      Finset.union_assoc]
    congr 1
    have hne' : ¬ LITHARGE = LIBERA_STAFF := fun h => hne h.symm
    by_cases h1 : a = LIBERA_STAFF <;> by_cases h2 : a = LITHARGE
    · exact absurd (h1.symm.trans h2) hne
    all_goals simp [h1, h2, hls, hne, hne']
  · rw [if_neg hls]
    simp [hls]

theorem current_getD_applyWmopbot (cfg : ConfiguredChannel)
    (m : List (String × FlagChange)) (a : String) :
    ((alookup (applyWmopbot cfg m) a).getD {}).current =
      ((alookup m a).getD {}).current := by
  unfold applyWmopbot
  split
  · rw [current_getD_upsert_addShould]
  · rfl

theorem should_getD_applyWmopbot (cfg : ConfiguredChannel)
    (m : List (String × FlagChange)) (a : String) :
    ((alookup (applyWmopbot cfg m) a).getD {}).should =
      ((alookup m a).getD {}).should ∪
        (if cfg.wmopbot = true ∧ a = WMOPBOT then ({'o', 't'} : Finset Char) else ∅) := by
  unfold applyWmopbot
  by_cases hwm : cfg.wmopbot = true
  · rw [if_pos hwm, should_getD_upsert_addShould]
    congr 1
    by_cases h : a = WMOPBOT <;> simp [h, hwm]
  · rw [if_neg hwm]
    simp [hwm]

theorem current_getD_buildChanges (mc : ManagedChannel) (cfg : ConfiguredChannel)
    (a : String) :
    ((alookup (buildChanges mc cfg) a).getD {}).current = currentAt mc a := by
  unfold buildChanges
  rw [current_getD_applyWmopbot, current_getD_applyLibera, current_getD_extendShould,
    current_getD_extendShould, current_getD_extendShould, current_getD_extendShould,
    current_getD_extendShould, current_getD_seedCurrent]
  rfl

theorem should_getD_buildChanges (mc : ManagedChannel) (cfg : ConfiguredChannel)
    (a : String) :
    ((alookup (buildChanges mc cfg) a).getD {}).should = shouldFor cfg a := by
  unfold buildChanges
  rw [should_getD_applyWmopbot, should_getD_applyLibera, should_getD_extendShould,
    should_getD_extendShould, should_getD_extendShould, should_getD_extendShould,
    should_getD_extendShould, should_getD_seedCurrent, Finset.empty_union]
  rfl

/-- The pointwise content of the changes map: for every account present, the
entry is exactly `⟨currentAt, shouldFor⟩`; for an absent account the default
is the same pair (both components `∅`). -/
theorem getD_buildChanges (mc : ManagedChannel) (cfg : ConfiguredChannel) (a : String) :
    ((alookup (buildChanges mc cfg) a).getD {}) =
      ⟨currentAt mc a, shouldFor cfg a⟩ := by
  have h1 := current_getD_buildChanges mc cfg a
  have h2 := should_getD_buildChanges mc cfg a
  rcases hx : (alookup (buildChanges mc cfg) a).getD {} with ⟨c, s⟩
  rw [hx] at h1 h2
  simp only at h1 h2
  rw [h1, h2]

theorem alookup_buildChanges_eq_some (mc : ManagedChannel) (cfg : ConfiguredChannel)
    (a : String) (fc : FlagChange) (h : alookup (buildChanges mc cfg) a = some fc) :
    fc = ⟨currentAt mc a, shouldFor cfg a⟩ := by
  have hg := getD_buildChanges mc cfg a
  rw [h] at hg
  simpa using hg

theorem alookup_buildChanges_eq_none (mc : ManagedChannel) (cfg : ConfiguredChannel)
    (a : String) (h : alookup (buildChanges mc cfg) a = none) :
    currentAt mc a = ∅ ∧ shouldFor cfg a = ∅ := by
  have hg := getD_buildChanges mc cfg a
  rw [h] at hg
  simp only [Option.getD_none] at hg
  exact ⟨congrArg FlagChange.current hg.symm, congrArg FlagChange.should hg.symm⟩

theorem nodup_keys_extendShould (L : Finset Char) (ns : List String)
    (m : List (String × FlagChange)) (h : (keysOf m).Nodup) :
    (keysOf (extendShould L ns m)).Nodup := by
  induction ns generalizing m with
  | nil => exact h
  | cons n ns ih => exact ih _ (nodup_keys_upsert m n {} (addShould L) h)

theorem nodup_keys_seedCurrent (es : List (String × Finset Char))
    (m : List (String × FlagChange)) (h : (keysOf m).Nodup) :
    (keysOf (seedCurrent es m)).Nodup := by
  induction es generalizing m with
  | nil => exact h
  | cons p es ih => exact ih _ (nodup_keys_upsert m p.1 {} (addCurrent p.2) h)

theorem nodup_keys_applyLibera (cfg : ConfiguredChannel)
    (m : List (String × FlagChange)) (h : (keysOf m).Nodup) :
    (keysOf (applyLibera cfg m)).Nodup := by
  unfold applyLibera
  split
  · exact nodup_keys_upsert _ _ _ _ (nodup_keys_upsert _ _ _ _ h)
  · exact h

theorem nodup_keys_applyWmopbot (cfg : ConfiguredChannel)
    (m : List (String × FlagChange)) (h : (keysOf m).Nodup) :
    (keysOf (applyWmopbot cfg m)).Nodup := by
  unfold applyWmopbot
  split
  · exact nodup_keys_upsert _ _ _ _ h
  · exact h

theorem nodup_keys_buildChanges (mc : ManagedChannel) (cfg : ConfiguredChannel) :
    (keysOf (buildChanges mc cfg)).Nodup :=
  nodup_keys_applyWmopbot _ _ (nodup_keys_applyLibera _ _
    (nodup_keys_extendShould _ _ _ (nodup_keys_extendShould _ _ _
      (nodup_keys_extendShould _ _ _ (nodup_keys_extendShould _ _ _
        (nodup_keys_extendShould _ _ _
          (nodup_keys_seedCurrent _ _ List.nodup_nil)))))))

/-! ## The emitted mode strings -/

theorem coe_sortedChars (s : Finset Char) : (↑(sortedChars s) : Multiset Char) = s.val := by
  rcases s with ⟨m, hm⟩
  induction m using Quotient.inductionOn with
  | h l => exact Quot.sound (List.perm_insertionSort _ l)

theorem mem_sortedChars (s : Finset Char) (c : Char) : c ∈ sortedChars s ↔ c ∈ s := by
  rw [← Multiset.mem_coe, coe_sortedChars, Finset.mem_def]

theorem sortedChars_eq_nil (s : Finset Char) : sortedChars s = [] ↔ s = ∅ := by
  constructor
  · intro h
    have := coe_sortedChars s
    rw [h] at this
    exact Finset.val_eq_zero.mp this.symm
  · rintro rfl
    rfl

theorem toFinset_sortedChars (s : Finset Char) : (sortedChars s).toFinset = s := by
  ext c
  rw [List.mem_toFinset, mem_sortedChars]

theorem sortedChars_empty : sortedChars ∅ = [] := rfl

/-- The combined mode string for one account, as the specification words it:
the `-`-prefixed ascending letters of `cur − des` (omitted when that set is
empty) immediately followed by the `+`-prefixed ascending letters of
`des − cur` (omitted when empty). -/
def modeString (cur des : Finset Char) : String :=
  String.mk ((if cur \ des = ∅ then [] else '-' :: sortedChars (cur \ des)) ++
    (if des \ cur = ∅ then [] else '+' :: sortedChars (des \ cur)))

theorem to_mode_eq (fc : FlagChange) :
    fc.to_mode =
      if fc.current = fc.should then none
      else some (modeString fc.current fc.should) := by
  unfold FlagChange.to_mode modeString
  split
  · rfl
  · have h1 : (sortedChars (fc.current \ fc.should)).isEmpty = true ↔
        fc.current \ fc.should = ∅ := by
      rw [List.isEmpty_iff, sortedChars_eq_nil]
    have h2 : (sortedChars (fc.should \ fc.current)).isEmpty = true ↔
        fc.should \ fc.current = ∅ := by
      rw [List.isEmpty_iff, sortedChars_eq_nil]
    by_cases hr : fc.current \ fc.should = ∅ <;> by_cases ha : fc.should \ fc.current = ∅ <;>
      simp [h1, h2, hr, ha, sortedChars_empty]

/-- Membership in the output of `fix_flags`, characterized: a pair
`(account, mode)` is emitted exactly when the live and desired letter sets
for that account differ, and then `mode` is the canonical combined mode
string of the two sets. -/
theorem mem_fix_flags_iff (mc : ManagedChannel) (cfg : ConfiguredChannel)
    (a mode : String) :
    (a, mode) ∈ mc.fix_flags cfg ↔
      currentAt mc a ≠ shouldFor cfg a ∧
        mode = modeString (currentAt mc a) (shouldFor cfg a) := by
  unfold ManagedChannel.fix_flags
  rw [List.mem_filterMap]
  constructor
  · rintro ⟨⟨b, fc⟩, hmem, hval⟩
    rw [Option.map_eq_some'] at hval
    obtain ⟨m0, hm0, heq⟩ := hval
    injection heq with hb hm
    dsimp only at hb hm0
    rw [hb] at hmem
    rw [hm] at hm0
    have hlk :=
      alookup_eq_some_of_mem (buildChanges mc cfg) (nodup_keys_buildChanges mc cfg) a fc hmem
    have hfc := alookup_buildChanges_eq_some mc cfg a fc hlk
    subst hfc
    rw [to_mode_eq] at hm0
    by_cases hne : currentAt mc a = shouldFor cfg a
    · simp [hne] at hm0
    · simp only [hne, if_neg] at hm0
      exact ⟨hne, by simpa using hm0.symm⟩
  · rintro ⟨hne, rfl⟩
    have hnone : alookup (buildChanges mc cfg) a ≠ none := by
      intro h
      obtain ⟨h1, h2⟩ := alookup_buildChanges_eq_none mc cfg a h
      exact hne (h1.trans h2.symm)
    obtain ⟨fc, hfc⟩ := Option.ne_none_iff_exists'.mp hnone
    have hval := alookup_buildChanges_eq_some mc cfg a fc hfc
    subst hval
    refine ⟨(a, ⟨currentAt mc a, shouldFor cfg a⟩), mem_of_alookup_eq_some _ _ _ hfc, ?_⟩
    rw [to_mode_eq]
    simp [hne]

/-! ## Applying the emitted commands back to the live state

The idempotence claim's application semantics: each emitted per-account mode
string is applied to that account's letter set (`-` switches to removing,
`+` to adding, every other character is removed/added), and each emitted ban
command inserts or erases its mask in the live ban set. -/

/-- One character of a mode string applied to `(letters, adding?)`. -/
def modeStep (p : Finset Char × Bool) (c : Char) : Finset Char × Bool :=
  if c = '-' then (p.1, false)
  else if c = '+' then (p.1, true)
  else if p.2 then (insert c p.1, p.2) else (p.1.erase c, p.2)

/-- A whole mode string applied to a letter set. -/
def applyMode (mode : String) (s : Finset Char) : Finset Char :=
  (mode.toList.foldl modeStep (s, true)).1

/-- Apply one emitted `(account, mode)` command to the live flags map:
update that account's letter set (an absent account starts from `∅`). -/
def applyFlagCmd (cur : List (String × Finset Char)) (cmd : String × String) :
    List (String × Finset Char) :=
  if cmd.1 ∈ keysOf cur then
    cur.map fun p => if p.1 = cmd.1 then (p.1, applyMode cmd.2 p.2) else p
  else cur ++ [(cmd.1, applyMode cmd.2 ∅)]

/-- Apply all emitted flag commands in order. -/
def applyFlagCmds (cmds : List (String × String)) (cur : List (String × Finset Char)) :
    List (String × Finset Char) :=
  cmds.foldl applyFlagCmd cur

/-- Apply one emitted ban command to the live ban set. -/
def applyModeCmd (bans : Finset String) : ModeCmd → Finset String
  | .plus _ (some mask) => insert mask bans
  | .minus _ (some mask) => bans.erase mask
  | .plus _ none => bans
  | .minus _ none => bans

/-- The live state after applying everything the diff emitted. -/
def applySync (mc : ManagedChannel) (cfg : ConfiguredChannel) : ManagedChannel :=
  { mc with
    current := applyFlagCmds (mc.fix_flags cfg) mc.current,
    bans := (mc.fix_modes cfg).foldl applyModeCmd mc.bans }

/-- A letter set that contains neither sign character.  Every letter set the
program ever stores is of this shape: `parse_flags` skips `+` and `-`, and
the tier constants hold letters only. -/
def signFree (s : Finset Char) : Prop := '-' ∉ s ∧ '+' ∉ s

theorem signFree_empty : signFree ∅ := ⟨by decide, by decide⟩

theorem signFree_union {s t : Finset Char} (hs : signFree s) (ht : signFree t) :
    signFree (s ∪ t) :=
  ⟨fun h => (Finset.mem_union.mp h).elim hs.1 ht.1,
   fun h => (Finset.mem_union.mp h).elim hs.2 ht.2⟩

theorem signFree_ite (p : Prop) [Decidable p] (S : Finset Char) (hS : signFree S) :
    signFree (if p then S else ∅) := by
  split
  · exact hS
  · exact signFree_empty

theorem signFree_shouldFor (cfg : ConfiguredChannel) (a : String) :
    signFree (shouldFor cfg a) := by
  unfold shouldFor
  exact signFree_union (signFree_union (signFree_union (signFree_union (signFree_union
    (signFree_union (signFree_ite _ _ ⟨by decide, by decide⟩) (signFree_ite _ _ ⟨by decide, by decide⟩))
    (signFree_ite _ _ ⟨by decide, by decide⟩)) (signFree_ite _ _ ⟨by decide, by decide⟩))
    (signFree_ite _ _ ⟨by decide, by decide⟩)) (signFree_ite _ _ ⟨by decide, by decide⟩))
    (signFree_ite _ _ ⟨by decide, by decide⟩)

theorem signFree_unionAt (l : List (String × Finset Char))
    (h : ∀ p ∈ l, signFree p.2) (a : String) : signFree (unionAt l a) := by
  induction l with
  | nil => exact signFree_empty
  | cons p rest ih =>
    have hp := h p (List.mem_cons_self ..)
    have hrest := ih fun q hq => h q (List.mem_cons_of_mem _ hq)
    unfold unionAt
    split
    · exact signFree_union hp hrest
    · exact hrest

theorem foldl_modeStep_no_signs (l : List Char) (x : Finset Char) (b : Bool)
    (h : ∀ c ∈ l, c ≠ '-' ∧ c ≠ '+') :
    l.foldl modeStep (x, b) = ((if b then x ∪ l.toFinset else x \ l.toFinset), b) := by
  induction l generalizing x with
  | nil => cases b <;> simp
  | cons c l ih =>
    have hc := h c (List.mem_cons_self ..)
    have hrest : ∀ d ∈ l, d ≠ '-' ∧ d ≠ '+' := fun d hd => h d (List.mem_cons_of_mem _ hd)
    cases b with
    | true =>
      have hstep : modeStep (x, true) c = (insert c x, true) := by
        simp [modeStep, hc.1, hc.2]
      rw [List.foldl_cons, hstep, ih _ hrest]
      simp [List.toFinset_cons, Finset.insert_union, Finset.union_insert]
    | false =>
      have hstep : modeStep (x, false) c = (x.erase c, false) := by
        simp [modeStep, hc.1, hc.2]
      rw [List.foldl_cons, hstep, ih _ hrest]
      have herase : x.erase c \ l.toFinset = x \ insert c l.toFinset := by
        ext d
        simp only [Finset.mem_sdiff, Finset.mem_erase, Finset.mem_insert]
        tauto
      simp [List.toFinset_cons, herase]

theorem applyMode_modeString (c s x : Finset Char) (hc : signFree c) (hs : signFree s) :
    applyMode (modeString c s) x = (x \ (c \ s)) ∪ (s \ c) := by
  have hrem : ∀ d ∈ sortedChars (c \ s), d ≠ '-' ∧ d ≠ '+' := by
    intro d hd
    have : d ∈ c := (Finset.mem_sdiff.mp ((mem_sortedChars _ d).mp hd)).1
    exact ⟨fun he => hc.1 (he ▸ this), fun he => hc.2 (he ▸ this)⟩
  have hadd : ∀ d ∈ sortedChars (s \ c), d ≠ '-' ∧ d ≠ '+' := by
    intro d hd
    have : d ∈ s := (Finset.mem_sdiff.mp ((mem_sortedChars _ d).mp hd)).1
    exact ⟨fun he => hs.1 (he ▸ this), fun he => hs.2 (he ▸ this)⟩
  have htl : (modeString c s).toList =
      (if c \ s = ∅ then [] else '-' :: sortedChars (c \ s)) ++
        (if s \ c = ∅ then [] else '+' :: sortedChars (s \ c)) := rfl
  unfold applyMode
  rw [htl]
  by_cases h1 : c \ s = ∅ <;> by_cases h2 : s \ c = ∅
  · simp [h1, h2]
  · rw [if_pos h1, if_neg h2, List.nil_append, List.foldl_cons]
    have hplus : modeStep (x, true) '+' = (x, true) := by simp [modeStep]
    rw [hplus, foldl_modeStep_no_signs _ _ _ hadd]
    simp [h1, toFinset_sortedChars]
  · rw [if_neg h1, if_pos h2, List.append_nil, List.foldl_cons]
    have hminus : modeStep (x, true) '-' = (x, false) := by simp [modeStep]
    rw [hminus, foldl_modeStep_no_signs _ _ _ hrem]
    simp [h2, toFinset_sortedChars]
  · rw [if_neg h1, if_neg h2, List.foldl_append, List.foldl_cons, List.foldl_cons]
    have hminus : modeStep (x, true) '-' = (x, false) := by simp [modeStep]
    have hplus : ∀ y : Finset Char, modeStep (y, false) '+' = (y, true) := by
      intro y; simp [modeStep]
    rw [hminus, foldl_modeStep_no_signs _ _ _ hrem]
    simp only [if_neg Bool.false_ne_true]
    rw [hplus, foldl_modeStep_no_signs _ _ _ hadd]
    simp [toFinset_sortedChars]

theorem unionAt_append (l1 l2 : List (String × Finset Char)) (a : String) :
    unionAt (l1 ++ l2) a = unionAt l1 a ∪ unionAt l2 a := by
  induction l1 with
  | nil => simp [unionAt]
  | cons p l ih =>
    by_cases h : p.1 = a <;> simp [unionAt, h, ih, Finset.union_assoc]

theorem mem_keysOf_iff {β : Type} (l : List (String × β)) (a : String) :
    a ∈ keysOf l ↔ ∃ b, (a, b) ∈ l := by
  unfold keysOf
  rw [List.mem_map]
  constructor
  · rintro ⟨⟨x, y⟩, hm, rfl⟩
    exact ⟨y, hm⟩
  · rintro ⟨b, hb⟩
    exact ⟨(a, b), hb, rfl⟩

theorem keysOf_map_keyfix (cur : List (String × Finset Char))
    (g : String × Finset Char → String × Finset Char) (hg : ∀ p, (g p).1 = p.1) :
    keysOf (cur.map g) = keysOf cur := by
  induction cur with
  | nil => rfl
  | cons p rest ih =>
    simp only [keysOf, List.map_cons] at ih ⊢
    rw [hg p, ih]

theorem unionAt_map_update_ne (cur : List (String × Finset Char)) (b : String)
    (f : Finset Char → Finset Char) (a : String) (h : ¬ b = a) :
    unionAt (cur.map fun p => if p.1 = b then (p.1, f p.2) else p) a = unionAt cur a := by
  induction cur with
  | nil => rfl
  | cons p rest ih =>
    rw [List.map_cons]
    by_cases hp : p.1 = b
    · have hpa : ¬ p.1 = a := fun he => h (hp.symm.trans he)
      rw [if_pos hp]
      simp only [unionAt]
      rw [if_neg hpa, if_neg hpa, ih]
    · rw [if_neg hp]
      simp only [unionAt]
      by_cases hpa : p.1 = a
      · rw [if_pos hpa, if_pos hpa, ih]
      · rw [if_neg hpa, if_neg hpa, ih]

theorem unionAt_map_apply (cur : List (String × Finset Char)) (a : String)
    (R A : Finset Char) (hmem : a ∈ keysOf cur) :
    unionAt (cur.map fun p => if p.1 = a then (p.1, (p.2 \ R) ∪ A) else p) a =
      (unionAt cur a \ R) ∪ A := by
  induction cur with
  | nil => simp [keysOf] at hmem
  | cons p rest ih =>
    rw [List.map_cons]
    by_cases hp : p.1 = a
    · rw [if_pos hp]
      simp only [unionAt]
      rw [if_pos hp, if_pos hp]
      by_cases hr : a ∈ keysOf rest
      · rw [ih hr]
        ext d
        simp only [Finset.mem_union, Finset.mem_sdiff]
        tauto
      · have hmap : a ∉ keysOf (rest.map fun p => if p.1 = a then (p.1, (p.2 \ R) ∪ A) else p) := by
          rw [keysOf_map_keyfix rest _ fun p => by by_cases hq : p.1 = a <;> simp [hq]]
          exact hr
        rw [unionAt_of_not_mem _ _ hmap, unionAt_of_not_mem _ _ hr]
        simp
    · have hmem2 : a ∈ keysOf rest := by
        obtain ⟨v, hv⟩ := (mem_keysOf_iff _ a).mp hmem
        rcases List.mem_cons.mp hv with he | hv2
        · exact absurd (congrArg Prod.fst he).symm hp
        · exact (mem_keysOf_iff _ a).mpr ⟨v, hv2⟩
      rw [if_neg hp]
      simp only [unionAt]
      rw [if_neg hp, if_neg hp, ih hmem2]

theorem unionAt_applyFlagCmd_ne (cur : List (String × Finset Char)) (b m : String)
    (a : String) (h : ¬ b = a) :
    unionAt (applyFlagCmd cur (b, m)) a = unionAt cur a := by
  unfold applyFlagCmd
  dsimp only
  split
  · exact unionAt_map_update_ne cur b _ a h
  · rw [unionAt_append]
    simp [unionAt, h]

theorem unionAt_applyFlagCmd_eq (cur : List (String × Finset Char)) (a : String)
    (R A : Finset Char) (m : String) (hm : ∀ x, applyMode m x = (x \ R) ∪ A) :
    unionAt (applyFlagCmd cur (a, m)) a = (unionAt cur a \ R) ∪ A := by
  unfold applyFlagCmd
  dsimp only
  by_cases hmem : a ∈ keysOf cur
  · rw [if_pos hmem]
    simp only [hm]
    exact unionAt_map_apply cur a R A hmem
  · rw [if_neg hmem, unionAt_append, unionAt_of_not_mem cur a hmem]
    simp [unionAt, hm]

theorem unionAt_applyFlagCmds_not_mem (cmds : List (String × String))
    (cur : List (String × Finset Char)) (a : String) (h : a ∉ keysOf cmds) :
    unionAt (applyFlagCmds cmds cur) a = unionAt cur a := by
  induction cmds generalizing cur with
  | nil => rfl
  | cons c cmds ih =>
    obtain ⟨b, m⟩ := c
    simp only [keysOf, List.map_cons, List.mem_cons, not_or] at h
    have hstep : applyFlagCmds ((b, m) :: cmds) cur = applyFlagCmds cmds (applyFlagCmd cur (b, m)) := rfl
    rw [hstep, ih _ (by simpa [keysOf] using h.2),
      unionAt_applyFlagCmd_ne cur b m a fun he => h.1 he.symm]

theorem unionAt_applyFlagCmds_split (l1 l2 : List (String × String)) (a m : String)
    (cur : List (String × Finset Char)) (h1 : a ∉ keysOf l1) (h2 : a ∉ keysOf l2)
    (R A : Finset Char) (hm : ∀ x, applyMode m x = (x \ R) ∪ A) :
    unionAt (applyFlagCmds (l1 ++ (a, m) :: l2) cur) a = (unionAt cur a \ R) ∪ A := by
  unfold applyFlagCmds
  rw [List.foldl_append, List.foldl_cons]
  have h2' : unionAt (applyFlagCmds l2 (applyFlagCmd (applyFlagCmds l1 cur) (a, m))) a =
      unionAt (applyFlagCmd (applyFlagCmds l1 cur) (a, m)) a :=
    unionAt_applyFlagCmds_not_mem l2 _ a h2
  rw [show (List.foldl applyFlagCmd (applyFlagCmd (List.foldl applyFlagCmd cur l1) (a, m)) l2) = applyFlagCmds l2 (applyFlagCmd (applyFlagCmds l1 cur) (a, m)) from rfl]
  rw [h2', unionAt_applyFlagCmd_eq _ a R A m hm,
    show applyFlagCmds l1 cur = List.foldl applyFlagCmd cur l1 from rfl,
    show unionAt (List.foldl applyFlagCmd cur l1) a = unionAt (applyFlagCmds l1 cur) a from rfl,
    unionAt_applyFlagCmds_not_mem l1 cur a h1]

theorem keysOf_filterMap_sublist (l : List (String × FlagChange)) :
    (keysOf (l.filterMap fun p => (p.2.to_mode).map fun mode => (p.1, mode))).Sublist
      (keysOf l) := by
  induction l with
  | nil => simp [keysOf]
  | cons p l ih =>
    cases hp : p.2.to_mode with
    | none =>
      simp only [keysOf, List.filterMap_cons, hp, Option.map_none', List.map_cons]
      exact ih.cons _
    | some m =>
      simp only [keysOf, List.filterMap_cons, hp, Option.map_some', List.map_cons]
      exact ih.cons₂ _

theorem nodup_keys_fix_flags (mc : ManagedChannel) (cfg : ConfiguredChannel) :
    (keysOf (mc.fix_flags cfg)).Nodup :=
  (nodup_keys_buildChanges mc cfg).sublist (keysOf_filterMap_sublist _)

/-- After applying every emitted flag command, every account's letter set is
exactly its desired set. -/
theorem unionAt_after_applySync (mc : ManagedChannel) (cfg : ConfiguredChannel)
    (hsf : ∀ p ∈ mc.current, signFree p.2) (a : String) :
    unionAt (applyFlagCmds (mc.fix_flags cfg) mc.current) a = shouldFor cfg a := by
  by_cases hk : a ∈ keysOf (mc.fix_flags cfg)
  · obtain ⟨m, hm⟩ := (mem_keysOf_iff _ a).mp hk
    obtain ⟨hne, rfl⟩ := (mem_fix_flags_iff mc cfg a m).mp hm
    obtain ⟨l1, l2, hsplit⟩ := List.append_of_mem hm
    have hnd : (keysOf (mc.fix_flags cfg)).Nodup := nodup_keys_fix_flags mc cfg
    rw [hsplit] at hnd
    have hkeys : keysOf (l1 ++ (a, modeString (currentAt mc a) (shouldFor cfg a)) :: l2) =
        keysOf l1 ++ a :: keysOf l2 := by simp [keysOf]
    rw [hkeys] at hnd
    have hnd2 := List.nodup_middle.mp hnd
    rw [List.nodup_cons] at hnd2
    have hnmem := hnd2.1
    rw [List.mem_append] at hnmem
    push_neg at hnmem
    have happly : ∀ x, applyMode (modeString (currentAt mc a) (shouldFor cfg a)) x =
        (x \ (currentAt mc a \ shouldFor cfg a)) ∪ (shouldFor cfg a \ currentAt mc a) :=
      fun x => applyMode_modeString _ _ x (signFree_unionAt mc.current hsf a)
        (signFree_shouldFor cfg a)
    rw [hsplit, unionAt_applyFlagCmds_split l1 l2 a _ mc.current hnmem.1 hnmem.2 _ _ happly]
    show (currentAt mc a \ (currentAt mc a \ shouldFor cfg a)) ∪
        (shouldFor cfg a \ currentAt mc a) = shouldFor cfg a
    ext d
    simp only [Finset.mem_union, Finset.mem_sdiff]
    tauto
  · rw [unionAt_applyFlagCmds_not_mem _ _ _ hk]
    by_cases hne : currentAt mc a = shouldFor cfg a
    · exact hne
    · exact absurd ((mem_keysOf_iff _ a).mpr
        ⟨_, (mem_fix_flags_iff mc cfg a _).mpr ⟨hne, rfl⟩⟩) hk

/-! ## The `iss_sync` authorization prefix (src/command.rs 64-143)

Only the control flow up to the `Syncing ...` announcement is modelled: the
channel check, the account check, and the owner/founder check.  The ChanServ
flags round-trip between those checks is I/O and does not alter the
decision, which is a pure function of the message and the two boolean
authorization facts. -/

/-- The sender-visible messages of this prefix. -/
inductive UserNotice
  | mustBeUsedInChannel
  | noPermission
  | syncing (channel account : String)
deriving DecidableEq

/-- The message fields `iss_sync` consumes: `response_target()` and the
result of `extract_account` (the IRCv3 `account` tag). -/
structure IrcMessage where
  response_target : Option String := none
  account : Option String := none
deriving DecidableEq

/-- `must_be_in_channel`: `Some(target)` when the response target is a
channel; otherwise `None`, after sending the in-channel notice when the
target merely is not a channel. -/
def must_be_in_channel (msg : IrcMessage) : Option String × List UserNotice :=
  match msg.response_target with
  | some target =>
      if ¬ strStartsWith target "#" then (none, [UserNotice.mustBeUsedInChannel])
      else (some target, [])
  | none => (none, [])

/-- How the authorization prefix of `iss_sync` ends. -/
inductive SyncOutcome
  | panicked (sent : List UserNotice)
  | aborted (sent : List UserNotice)
  | proceeding (channel account : String) (sent : List UserNotice)
deriving DecidableEq

/-- The authorization prefix of `iss_sync`: `must_be_in_channel(...).unwrap()`
(panicking on `None`), then the account check, then the owner-or-live-founder
check, then the `Syncing` announcement. -/
def iss_sync_auth (msg : IrcMessage) (isOwner isFounderLive : Bool) : SyncOutcome :=
  match must_be_in_channel msg with
  | (none, sent) => .panicked sent
  | (some channel, sent) =>
      match msg.account with
      | none => .aborted (sent ++ [UserNotice.noPermission])
      | some account =>
          if ¬ isOwner = true ∧ ¬ isFounderLive = true then
            .aborted (sent ++ [UserNotice.noPermission])
          else
            .proceeding channel account (sent ++ [UserNotice.syncing channel account])

/-! ## Claim theorems -/

/-- The live and desired states of the `test_fix_flags` scenario. -/
def mcC1 : ManagedChannel := { current := [("foo", FOUNDER)] }

def cfgC1 : ConfiguredChannel := { founders := ["bar"], ops := ["foo"] }

/-- C1: with live flags `foo ↦ {A,F,R,e,f,i,o,r,s,t,v}` and desired
`founders = {bar}`, `ops = {foo}` (everything else empty/false), `fix_flags`
returns exactly the pairs `("bar", "+AFRefiorstv")` and `("foo", "-FRefrs")`,
in some order and nothing else. -/
theorem claim_c1_fix_flags_concrete :
    (mcC1.fix_flags cfgC1).Perm [("bar", "+AFRefiorstv"), ("foo", "-FRefrs")] := by
  decide

/-- C2: whenever `fix_flags` emits a pair `(a, mode)`, the live and desired
letter sets of `a` differ and `mode` is the `-`-sorted-removals then
`+`-sorted-additions string of the two sets, either part omitted when empty
(`modeString`).  By the first conjunct (contrapositive), an account whose
live set equals its desired set gets no entry at all. -/
theorem claim_c2_mode_string_shape (mc : ManagedChannel) (cfg : ConfiguredChannel)
    (a mode : String) (h : (a, mode) ∈ mc.fix_flags cfg) :
    currentAt mc a ≠ shouldFor cfg a ∧
      mode = modeString (currentAt mc a) (shouldFor cfg a) :=
  (mem_fix_flags_iff mc cfg a mode).mp h

theorem claim_c2_witness :
    currentAt mcC1 "foo" ≠ shouldFor cfgC1 "foo" ∧
      "-FRefrs" = modeString (currentAt mcC1 "foo") (shouldFor cfgC1 "foo") :=
  claim_c2_mode_string_shape mcC1 cfgC1 "foo" "-FRefrs" (by decide)

/-- C4: for every live and desired state, `fix_modes` emits at most one
command; it emits the add-ban of the fixed global-bans mask exactly when
`global_bans` is set and the mask is missing, the remove-ban exactly when
`global_bans` is unset and the mask is present, and nothing else — never
another ban and never an invite-exception command, whatever `cfg.invexes`
holds. -/
theorem claim_c4_fix_modes_shape (mc : ManagedChannel) (cfg : ConfiguredChannel) :
    (mc.fix_modes cfg).length ≤ 1 ∧
    (ModeCmd.plus ChanMode.ban (some GLOBAL_BANS) ∈ mc.fix_modes cfg ↔
      cfg.global_bans = true ∧ GLOBAL_BANS ∉ mc.bans) ∧
    (ModeCmd.minus ChanMode.ban (some GLOBAL_BANS) ∈ mc.fix_modes cfg ↔
      cfg.global_bans = false ∧ GLOBAL_BANS ∈ mc.bans) ∧
    ∀ cmd ∈ mc.fix_modes cfg,
      cmd = ModeCmd.plus ChanMode.ban (some GLOBAL_BANS) ∨
        cmd = ModeCmd.minus ChanMode.ban (some GLOBAL_BANS) := by
  unfold ManagedChannel.fix_modes
  cases hg : cfg.global_bans <;> by_cases hb : GLOBAL_BANS ∈ mc.bans <;> simp [hg, hb]

/-- C8: an account that belongs to several desired tiers (here: both
`founders` and `autovoice`) is accumulated with the union of all its tiers'
letter sets and injected grants (`shouldFor`), not the letters of a single
tier: in particular both `FOUNDER` and `AUTOVOICE` letters are contained in
its desired set inside the changes map `fix_flags` diffs. -/
theorem claim_c8_multi_tier_union (mc : ManagedChannel) (cfg : ConfiguredChannel)
    (a : String) (h1 : a ∈ cfg.founders) (h2 : a ∈ cfg.autovoice) :
    ((alookup (buildChanges mc cfg) a).getD {}).should = shouldFor cfg a ∧
      FOUNDER ∪ AUTOVOICE ⊆ ((alookup (buildChanges mc cfg) a).getD {}).should := by
  refine ⟨should_getD_buildChanges mc cfg a, ?_⟩
  rw [should_getD_buildChanges]
  unfold shouldFor
  rw [if_pos h1, if_pos h2]
  intro c hc
  simp only [Finset.mem_union] at hc ⊢
  tauto

/-- The configuration used to witness C8. -/
def cfgC8 : ConfiguredChannel := { founders := ["x"], autovoice := ["x"] }

theorem claim_c8_witness :
    ((alookup (buildChanges {} cfgC8) "x").getD {}).should = shouldFor cfgC8 "x" ∧
      FOUNDER ∪ AUTOVOICE ⊆ ((alookup (buildChanges {} cfgC8) "x").getD {}).should :=
  claim_c8_multi_tier_union {} cfgC8 "x" (by decide) (by decide)

instance (s : Finset Char) : Decidable (signFree s) := by
  unfold signFree
  infer_instance

/-- C3: applying the emitted commands back to the live state (each per-account
mode string applied to that account's letter set, the ban command applied to
the ban set) and re-running the diff against the same desired state emits no
flag command and no ACL command.  The hypothesis states the invariant every
reachable live state satisfies: stored letter sets never contain the sign
characters `+`/`-` (`parse_flags` strips them and the report grammar cannot
produce them). -/
theorem claim_c3_idempotent (mc : ManagedChannel) (cfg : ConfiguredChannel)
    (hsf : ∀ p ∈ mc.current, signFree p.2) :
    (applySync mc cfg).fix_flags cfg = [] ∧ (applySync mc cfg).fix_modes cfg = [] := by
  constructor
  · unfold ManagedChannel.fix_flags
    rw [List.filterMap_eq_nil_iff]
    rintro ⟨b, fc⟩ hmem
    have hlk := alookup_eq_some_of_mem _ (nodup_keys_buildChanges (applySync mc cfg) cfg) b fc hmem
    have hfc := alookup_buildChanges_eq_some _ _ _ _ hlk
    subst hfc
    have hcur : currentAt (applySync mc cfg) b = shouldFor cfg b :=
      unionAt_after_applySync mc cfg hsf b
    rw [to_mode_eq]
    simp [hcur]
  · show (applySync mc cfg).fix_modes cfg = []
    unfold applySync ManagedChannel.fix_modes
    cases hg : cfg.global_bans <;> by_cases hb : GLOBAL_BANS ∈ mc.bans <;>
      simp [hg, hb, applyModeCmd, Finset.not_mem_erase, Finset.mem_insert_self]

theorem claim_c3_witness :
    (applySync mcC1 cfgC1).fix_flags cfgC1 = [] ∧ (applySync mcC1 cfgC1).fix_modes cfgC1 = [] :=
  claim_c3_idempotent mcC1 cfgC1 (by decide)

/-- C7 (code_bug evidence): when `!issync` is used outside a room — here a
private message whose response target is the sender's nick — `iss_sync`
first sends the in-channel notice but then unwraps `must_be_in_channel`'s
`None` and panics (the `// FIXME: avoid unwrap` in the source marks the
slip), instead of aborting cleanly as the specification requires.  The two
genuine authorization rejections (no account; neither owner nor live
founder) do abort with a notice, as the remaining conjuncts show. -/
theorem iss_sync_panics_outside_channel :
    iss_sync_auth { response_target := some "legoktm", account := some "legoktm" } false false =
      SyncOutcome.panicked [UserNotice.mustBeUsedInChannel] ∧
    iss_sync_auth { response_target := some "#wikimedia-ops", account := none } false false =
      SyncOutcome.aborted [UserNotice.noPermission] ∧
    iss_sync_auth { response_target := some "#wikimedia-ops", account := some "legoktm" } false false =
      SyncOutcome.aborted [UserNotice.noPermission] := by
  decide

/-! ## The report-line grammar -/

theorem takeWhile_append_block {p : Char → Bool} (l1 : List Char) (c : Char)
    (t : List Char) (h1 : ∀ d ∈ l1, p d = true) (h2 : p c = false) :
    (l1 ++ c :: t).takeWhile p = l1 ∧ (l1 ++ c :: t).dropWhile p = c :: t := by
  induction l1 with
  | nil => simp [List.takeWhile_cons, List.dropWhile_cons, h2]
  | cons d l ih =>
    have hd := h1 d (List.mem_cons_self ..)
    have ih2 := ih fun e he => h1 e (List.mem_cons_of_mem _ he)
    simp [List.takeWhile_cons, List.dropWhile_cons, hd, ih2.1, ih2.2]

theorem takeWhile_append_of_all {p : Char → Bool} (l1 l2 : List Char)
    (h : ∀ d ∈ l1, p d = true) :
    (l1 ++ l2).takeWhile p = l1 ++ l2.takeWhile p := by
  induction l1 with
  | nil => rfl
  | cons d l ih =>
    have hd := h d (List.mem_cons_self ..)
    have ih2 := ih fun e he => h e (List.mem_cons_of_mem _ he)
    simp [List.takeWhile_cons, hd, ih2]

theorem not_digit_of_space {c : Char} (h : isRegexSpace c = true) : isDigit09 c = false := by
  simp only [isRegexSpace, decide_eq_true_eq] at h
  simp only [isDigit09, decide_eq_false_iff_not]
  omega

theorem mem_takeWhile_pred {p : Char → Bool} (l : List Char) :
    ∀ c ∈ l.takeWhile p, p c = true := by
  induction l with
  | nil => simp
  | cons d l ih =>
    rw [List.takeWhile_cons]
    split
    · intro c hc
      rcases List.mem_cons.mp hc with rfl | hc2
      · assumption
      · exact ih c hc2
    · simp

/-- The declarative reading of the regex that the code actually uses,
`^[0-9]+\s+([^\s]+)\s+\+([A-z]+)`: the line decomposes into a nonempty
digit run, whitespace, a nonempty non-whitespace account, whitespace, a
literal plus and at least one `[A-z]` character (code points 65..122),
with arbitrary trailing text. -/
def matchesChanservLine (line : String) : Prop :=
  ∃ ds w1 ac w2 ls rest : List Char,
    line.toList = ds ++ w1 ++ ac ++ w2 ++ '+' :: (ls ++ rest) ∧
    ds ≠ [] ∧ (∀ c ∈ ds, isDigit09 c = true) ∧
    w1 ≠ [] ∧ (∀ c ∈ w1, isRegexSpace c = true) ∧
    ac ≠ [] ∧ (∀ c ∈ ac, isRegexSpace c = false) ∧
    w2 ≠ [] ∧ (∀ c ∈ w2, isRegexSpace c = true) ∧
    ls ≠ [] ∧ (∀ c ∈ ls, isAz c = true)

theorem decomp_of_captureChanserv (line : String) (pr : String × String)
    (h : captureChanserv line = some pr) : matchesChanservLine line := by
  unfold captureChanserv at h
  dsimp only at h
  set ds := List.takeWhile isDigit09 line.toList with hds
  set r1 := List.dropWhile isDigit09 line.toList with hr1
  set w1 := List.takeWhile isRegexSpace r1 with hw1
  set r2 := List.dropWhile isRegexSpace r1 with hr2
  set ac := List.takeWhile (fun c => !isRegexSpace c) r2 with hac
  set r3 := List.dropWhile (fun c => !isRegexSpace c) r2 with hr3
  set w2 := List.takeWhile isRegexSpace r3 with hw2
  set r4 := List.dropWhile isRegexSpace r3 with hr4
  by_cases h1 : ds.isEmpty = true
  · rw [if_pos h1] at h
    exact absurd h (by simp)
  rw [if_neg h1] at h
  by_cases h2 : w1.isEmpty = true
  · rw [if_pos h2] at h
    exact absurd h (by simp)
  rw [if_neg h2] at h
  by_cases h3 : ac.isEmpty = true
  · rw [if_pos h3] at h
    exact absurd h (by simp)
  rw [if_neg h3] at h
  by_cases h4 : w2.isEmpty = true
  · rw [if_pos h4] at h
    exact absurd h (by simp)
  rw [if_neg h4] at h
  rcases hr5 : r4 with _ | ⟨c, r5⟩
  · rw [hr5] at h
    exact absurd h (by simp)
  rw [hr5] at h
  dsimp only at h
  by_cases hc : c = '+'
  swap
  · rw [if_neg hc] at h
    exact absurd h (by simp)
  rw [if_pos hc] at h
  subst hc
  by_cases h5 : (List.takeWhile isAz r5).isEmpty = true
  · rw [if_pos h5] at h
    exact absurd h (by simp)
  refine ⟨ds, w1, ac, w2, List.takeWhile isAz r5, List.dropWhile isAz r5,
    ?_, fun he => h1 (by rw [he]; rfl), ?_, fun he => h2 (by rw [he]; rfl), ?_,
    fun he => h3 (by rw [he]; rfl), ?_, fun he => h4 (by rw [he]; rfl), ?_,
    fun he => h5 (by rw [he]; rfl), ?_⟩
  · -- the decomposition of the line
    have e0 : ds ++ r1 = line.toList := by
      rw [hds, hr1]
      exact List.takeWhile_append_dropWhile _ _
    have e1 : w1 ++ r2 = r1 := by
      rw [hw1, hr2]
      exact List.takeWhile_append_dropWhile _ _
    have e2 : ac ++ r3 = r2 := by
      rw [hac, hr3]
      exact List.takeWhile_append_dropWhile _ _
    have e3 : w2 ++ r4 = r3 := by
      rw [hw2, hr4]
      exact List.takeWhile_append_dropWhile _ _
    have e5 : List.takeWhile isAz r5 ++ List.dropWhile isAz r5 = r5 := by
      exact List.takeWhile_append_dropWhile _ _
    rw [e5, ← hr5, ← e0, ← e1, ← e2, ← e3]
    simp [List.append_assoc]
  · rw [hds]
    exact mem_takeWhile_pred _
  · rw [hw1]
    exact mem_takeWhile_pred _
  · intro d hd
    rw [hac] at hd
    have := mem_takeWhile_pred _ d hd
    simpa using this
  · rw [hw2]
    exact mem_takeWhile_pred _
  · exact mem_takeWhile_pred _

theorem captureChanserv_of_decomp (line : String) (h : matchesChanservLine line) :
    ∃ pr, captureChanserv line = some pr := by
  obtain ⟨ds, w1, ac, w2, ls, rest, hline, hds0, hdsall, hw10, hw1all, hac0, hacall,
    hw20, hw2all, hls0, hlsall⟩ := h
  obtain ⟨c1, t1, rfl⟩ : ∃ c t, w1 = c :: t := by
    cases w1 with
    | nil => exact absurd rfl hw10
    | cons c t => exact ⟨c, t, rfl⟩
  obtain ⟨c2, t2, rfl⟩ : ∃ c t, ac = c :: t := by
    cases ac with
    | nil => exact absurd rfl hac0
    | cons c t => exact ⟨c, t, rfl⟩
  obtain ⟨c3, t3, rfl⟩ : ∃ c t, w2 = c :: t := by
    cases w2 with
    | nil => exact absurd rfl hw20
    | cons c t => exact ⟨c, t, rfl⟩
  have key : line.toList =
      ds ++ c1 :: (t1 ++ (c2 :: (t2 ++ (c3 :: (t3 ++ ('+' :: (ls ++ rest))))))) := by
    rw [hline]
    simp [List.append_assoc]
  have s1 := takeWhile_append_block (p := isDigit09) ds c1
    (t1 ++ (c2 :: (t2 ++ (c3 :: (t3 ++ ('+' :: (ls ++ rest))))))) hdsall
    (not_digit_of_space (hw1all c1 (List.mem_cons_self ..)))
  have s2 := takeWhile_append_block (p := isRegexSpace) (c1 :: t1) c2
    (t2 ++ (c3 :: (t3 ++ ('+' :: (ls ++ rest))))) hw1all
    (hacall c2 (List.mem_cons_self ..))
  have s3 := takeWhile_append_block (p := fun c => !isRegexSpace c) (c2 :: t2) c3
    (t3 ++ ('+' :: (ls ++ rest)))
    (fun d hd => by
      show (!isRegexSpace d) = true
      rw [hacall d hd]
      rfl)
    (by
      show (!isRegexSpace c3) = false
      rw [hw2all c3 (List.mem_cons_self ..)]
      rfl)
  have s4 := takeWhile_append_block (p := isRegexSpace) (c3 :: t3) '+'
    (ls ++ rest) hw2all (by decide)
  obtain ⟨s1t, s1d⟩ := s1
  obtain ⟨s2t, s2d⟩ := s2
  obtain ⟨s3t, s3d⟩ := s3
  obtain ⟨s4t, s4d⟩ := s4
  rw [List.cons_append] at s2t s2d s3t s3d s4t s4d
  have s5 := takeWhile_append_of_all (p := isAz) ls rest hlsall
  refine ⟨(String.mk (c2 :: t2), String.mk (List.takeWhile isAz (ls ++ rest))), ?_⟩
  unfold captureChanserv
  dsimp only
  rw [key, s1t, s1d, if_neg (fun hh => hds0 (List.isEmpty_iff.mp hh)), s2t, s2d,
    if_neg (by simp), s3t, s3d, if_neg (by simp), s4t, s4d, if_neg (by simp)]
  dsimp only
  rw [if_pos rfl]
  rw [if_neg ?_]
  · rw [s5]
    cases ls with
    | nil => exact absurd rfl hls0
    | cons c4 t4 => simp [List.isEmpty_iff]

/-- The ASCII letter class `[A-Za-z]`. -/
def isAsciiLetter (c : Char) : Bool :=
  decide ((65 ≤ c.toNat ∧ c.toNat ≤ 90) ∨ (97 ≤ c.toNat ∧ c.toNat ≤ 122))

/-- Modelled from the spec: the report-line grammar the specification states,
`^\d{1,3}\s+([identifier-chars]+)\s+\+([A-Za-z]+)`, with the account class
read as generously as possible (any non-whitespace).  As in
`captureChanserv`, every quantified class is followed by a character outside
it, so matching is equivalent to checking the maximal runs; `\d{1,3}`
matches exactly when the maximal digit run is one to three long, since with
four or more digits every ≤3-digit prefix is followed by a digit, which
`\s` cannot consume. -/
def specLineMatches (line : String) : Bool :=
  let l := line.toList
  let ds := l.takeWhile isDigit09
  let r1 := l.dropWhile isDigit09
  let w1 := r1.takeWhile isRegexSpace
  let r2 := r1.dropWhile isRegexSpace
  let ac := r2.takeWhile fun c => !isRegexSpace c
  let r3 := r2.dropWhile fun c => !isRegexSpace c
  let w2 := r3.takeWhile isRegexSpace
  let r4 := r3.dropWhile isRegexSpace
  (!ds.isEmpty && decide (ds.length ≤ 3)) && !w1.isEmpty && !ac.isEmpty && !w2.isEmpty &&
    (match r4 with
     | c :: r5 => decide (c = '+') && !(r5.takeWhile isAsciiLetter).isEmpty
     | [] => false)

/-- C5 (counterexample): the line `1234 foo +A` does not match the claimed
grammar (`\d{1,3}` rejects a four-digit ordinal), yet the code records it:
the actual regex is `^[0-9]+\s+([^\s]+)\s+\+([A-z]+)`. -/
theorem claim_c5_counterexample :
    ManagedChannel.add_flags_from_chanserv {} "1234 foo +A" =
      Except.ok { current := [("foo", {'A'})] } ∧
    specLineMatches "1234 foo +A" = false := by
  decide

/-- C5 (amended): `add_flags_from_chanserv` records a data line exactly when
the line matches `^[0-9]+\s+([^\s]+)\s+\+([A-z]+)` — one or more digits (not
one to three), and a letters class of the full ASCII range 65..122 (`[A-z]`,
which also covers the six punctuation characters between `Z` and `a`), not
`[A-Za-z]` — stated against the declarative decomposition
`matchesChanservLine`. -/
theorem claim_c5_amended_grammar (mc : ManagedChannel) (line : String) :
    (∃ mc2, mc.add_flags_from_chanserv line = .ok mc2) ↔ matchesChanservLine line := by
  constructor
  · rintro ⟨mc2, h⟩
    unfold ManagedChannel.add_flags_from_chanserv at h
    cases hcap : captureChanserv line with
    | none =>
      rw [hcap] at h
      simp at h
    | some pr => exact decomp_of_captureChanserv line pr hcap
  · intro hm
    obtain ⟨pr, hpr⟩ := captureChanserv_of_decomp line hm
    obtain ⟨acct, lett⟩ := pr
    refine ⟨{ mc with current := insertKV mc.current acct (parse_flags lett) }, ?_⟩
    unfold ManagedChannel.add_flags_from_chanserv
    rw [hpr]

theorem unionAt_insertKV_self (m : List (String × Finset Char)) (k : String)
    (v : Finset Char) (hnd : (keysOf m).Nodup) : unionAt (insertKV m k v) k = v := by
  induction m with
  | nil => simp [insertKV, upsert, unionAt]
  | cons p rest ih =>
    obtain ⟨k0, w⟩ := p
    simp only [keysOf, List.map_cons, List.nodup_cons] at hnd
    by_cases hk : k0 = k
    · subst hk
      have hnot : k0 ∉ keysOf rest := by simpa [keysOf] using hnd.1
      simp [insertKV, upsert, unionAt, unionAt_of_not_mem rest k0 hnot]
    · have hstep : insertKV ((k0, w) :: rest) k v = (k0, w) :: insertKV rest k v := by
        simp [insertKV, upsert, hk]
      rw [hstep]
      simp only [unionAt]
      rw [if_neg hk]
      exact ih hnd.2

theorem unionAt_insertKV_ne (m : List (String × Finset Char)) (k : String)
    (v : Finset Char) (b : String) (h : b ≠ k) :
    unionAt (insertKV m k v) b = unionAt m b := by
  have h' : ¬ k = b := fun he => h he.symm
  induction m with
  | nil => simp [insertKV, upsert, unionAt, h']
  | cons p rest ih =>
    obtain ⟨k0, w⟩ := p
    by_cases hk : k0 = k
    · subst hk
      have hstep : insertKV ((k0, w) :: rest) k0 v = (k0, v) :: rest := by
        simp [insertKV, upsert]
      rw [hstep]
      simp only [unionAt]
      rw [if_neg h', if_neg h']
    · have hstep : insertKV ((k0, w) :: rest) k v = (k0, w) :: insertKV rest k v := by
        simp [insertKV, upsert, hk]
      rw [hstep]
      simp only [unionAt]
      by_cases hb : k0 = b
      · rw [if_pos hb, if_pos hb, ih]
      · rw [if_neg hb, if_neg hb, ih]

/-- C10: a successful ingest of a data line for account X replaces X's whole
letter set in `current` with the parsed set — not a union with the old one —
and changes nothing else: every other account's letters, the ban and invex
sets and the three completion flags are untouched. -/
theorem claim_c10_ingest_frame (mc : ManagedChannel) (line account letters : String)
    (hnd : (keysOf mc.current).Nodup)
    (hcap : captureChanserv line = some (account, letters)) :
    ∃ mc2, mc.add_flags_from_chanserv line = .ok mc2 ∧
      unionAt mc2.current account = parse_flags letters ∧
      (∀ b, b ≠ account → unionAt mc2.current b = unionAt mc.current b) ∧
      mc2.bans = mc.bans ∧ mc2.invexes = mc.invexes ∧
      mc2.flags_done = mc.flags_done ∧ mc2.bans_done = mc.bans_done ∧
      mc2.invexes_done = mc.invexes_done := by
  refine ⟨{ mc with current := insertKV mc.current account (parse_flags letters) },
    ?_, ?_, ?_, rfl, rfl, rfl, rfl, rfl⟩
  · unfold ManagedChannel.add_flags_from_chanserv
    rw [hcap]
  · exact unionAt_insertKV_self mc.current account (parse_flags letters) hnd
  · intro b hb
    exact unionAt_insertKV_ne mc.current account (parse_flags letters) b hb

theorem claim_c10_witness :
    ∃ mc2, (ManagedChannel.add_flags_from_chanserv { current := [("addshore", OP)] }
        "2        legoktm                +AFRefiorstv         (FOUNDER) [modified 9s ago]")
        = .ok mc2 ∧
      unionAt mc2.current "legoktm" = parse_flags "AFRefiorstv" ∧
      (∀ b, b ≠ "legoktm" →
        unionAt mc2.current b = unionAt [("addshore", OP)] b) ∧
      mc2.bans = (∅ : Finset String) ∧ mc2.invexes = (∅ : Finset String) ∧
      mc2.flags_done = false ∧ mc2.bans_done = false ∧ mc2.invexes_done = false :=
  claim_c10_ingest_frame { current := [("addshore", OP)] }
    "2        legoktm                +AFRefiorstv         (FOUNDER) [modified 9s ago]"
    "legoktm" "AFRefiorstv" (by decide) (by decide)

/-! ## Listener claims -/

/-- The listener invariant along one flags query for channel `ch`: the shared
slot holds `ch` (or was already cleared by the terminator) and `ch` has an
accumulator entry. -/
def listenInv (ch : String) (st : BotState) : Prop :=
  (st.chanserv = some ch ∨ st.chanserv = none) ∧ ch ∈ keysOf st.channels

theorem upsert_id_of_mem {β : Type} (m : List (String × β)) (k : String) (d : β)
    (h : k ∈ keysOf m) : upsert m k d (fun v => v) = m := by
  induction m with
  | nil => simp [keysOf] at h
  | cons p rest ih =>
    obtain ⟨k0, v⟩ := p
    by_cases hk : k0 = k
    · simp [upsert, hk]
    · have h2 : k ∈ keysOf rest := by
        rcases (by simpa [keysOf] using h : k = k0 ∨ k ∈ keysOf rest) with he | hm
        · exact absurd he.symm hk
        · exact hm
      simp [upsert, hk, ih h2]

theorem listenInv_step (ch : String) (st : BotState) (notice : String)
    (h : listenInv ch st) : listenInv ch (listenNotice st notice).state := by
  unfold listenNotice
  by_cases hh : (strStartsWith notice "--------------" ||
      strStartsWith notice "Entry    Nickname/Host") = true
  · rw [if_pos hh]
    exact h
  rw [if_neg hh]
  split
  next channel hcs =>
    have hchan : channel = ch := by
      rcases h.1 with hc | hc
      · rw [hcs] at hc
        exact Option.some.inj hc
      · rw [hcs] at hc
        exact absurd hc (by simp)
    subst hchan
    by_cases he : strStartsWith notice "End of" = true
    · rw [if_pos he]
      split
      next mc halk =>
        exact ⟨Or.inr rfl,
          (mem_keys_upsert st.channels channel {} _ channel).mpr (Or.inl rfl)⟩
      next halk => exact h
    · rw [if_neg he]
      split
      next mc2 hadd =>
        exact ⟨by rw [hcs]; exact Or.inl rfl,
          (mem_keys_upsert st.channels channel {} _ channel).mpr (Or.inl rfl)⟩
      next e hadd =>
        exact ⟨by rw [hcs]; exact Or.inl rfl,
          (mem_keys_upsert st.channels channel {} _ channel).mpr (Or.inl rfl)⟩
  next hcs => exact h

theorem listenNotice_state_malformed (ch : String) (st : BotState) (bad : String)
    (hinv : listenInv ch st)
    (hh1 : strStartsWith bad "--------------" = false)
    (hh2 : strStartsWith bad "Entry    Nickname/Host" = false)
    (hh3 : strStartsWith bad "End of" = false)
    (hcap : captureChanserv bad = none) :
    (listenNotice st bad).state = st := by
  unfold listenNotice
  rw [if_neg (by rw [hh1, hh2]; simp)]
  split
  next channel hcs =>
    have hchan : channel = ch := by
      rcases hinv.1 with hc | hc
      · rw [hcs] at hc
        exact Option.some.inj hc
      · rw [hcs] at hc
        exact absurd hc (by simp)
    subst hchan
    rw [if_neg (by rw [hh3]; simp)]
    have herr : ((alookup st.channels channel).getD {}).add_flags_from_chanserv bad =
        Except.error (ParseErr.couldNotParse bad) := by
      unfold ManagedChannel.add_flags_from_chanserv
      rw [hcap]
    split
    next mc2 hadd =>
      rw [herr] at hadd
      exact absurd hadd (by simp)
    next e hadd =>
      show ({ st with channels := upsert st.channels channel {} fun m => m } : BotState) = st
      rw [upsert_id_of_mem st.channels channel {} hinv.2]
  next hcs => rfl

theorem listenInv_fold (ch : String) (st : BotState) (lines : List String)
    (h : listenInv ch st) : listenInv ch (listenNotices st lines) := by
  induction lines generalizing st with
  | nil => exact h
  | cons n lines ih => exact ih _ (listenInv_step ch st n h)

theorem listenNotices_append (st : BotState) (l1 l2 : List String) :
    listenNotices st (l1 ++ l2) = listenNotices (listenNotices st l1) l2 :=
  List.foldl_append ..

/-- C6 (counterexample): `add_flags_from_chanserv` itself does not accept the
dashed-rule header line — it returns the parse error naming it, rather than
succeeding as the claim states. -/
theorem claim_c6_counterexample :
    ManagedChannel.add_flags_from_chanserv {} "--------------" =
      Except.error (ParseErr.couldNotParse "--------------") := by
  decide

/-- C6 (amended): header/separator lines are recognized and skipped one layer
up, by the ChanServ listener: on a line starting with the dashed rule or the
column header, `listenNotice` returns the state unchanged, logs nothing and
cannot panic; `add_flags_from_chanserv` is never invoked on them. -/
theorem claim_c6_headers_skipped (st : BotState) (line : String)
    (h : strStartsWith line "--------------" = true ∨
      strStartsWith line "Entry    Nickname/Host" = true) :
    listenNotice st line = { state := st } := by
  unfold listenNotice
  rcases h with h | h <;> rw [if_pos (by rw [h]; simp)]

theorem claim_c6_witness :
    listenNotice { chanserv := some "#c", channels := [] } "--------------" =
      { state := { chanserv := some "#c", channels := [] } } :=
  claim_c6_headers_skipped { chanserv := some "#c", channels := [] }
    "--------------" (Or.inl (by decide))

/-- C9: a malformed report line (matching neither the record regex nor a
header/terminator) makes the ingester return the `ParseError` naming that
line, which the listener only logs: the listener state is unchanged by the
bad line, so a whole report with the bad line in the middle accumulates
exactly the same state as the report without it — every valid line after the
malformed one is still recorded. -/
theorem claim_c9_malformed_line_recovery (ch : String) (mc0 : ManagedChannel)
    (pre post : List String) (bad : String)
    (hh1 : strStartsWith bad "--------------" = false)
    (hh2 : strStartsWith bad "Entry    Nickname/Host" = false)
    (hh3 : strStartsWith bad "End of" = false)
    (hcap : captureChanserv bad = none) :
    (∀ mc : ManagedChannel, mc.add_flags_from_chanserv bad =
      .error (.couldNotParse bad)) ∧
    listenNotices { chanserv := some ch, channels := [(ch, mc0)] } (pre ++ bad :: post) =
      listenNotices { chanserv := some ch, channels := [(ch, mc0)] } (pre ++ post) := by
  constructor
  · intro mc
    unfold ManagedChannel.add_flags_from_chanserv
    rw [hcap]
  · have hinv0 : listenInv ch { chanserv := some ch, channels := [(ch, mc0)] } :=
      ⟨Or.inl rfl, by simp [keysOf]⟩
    have hinv1 := listenInv_fold ch _ pre hinv0
    rw [listenNotices_append, listenNotices_append]
    show listenNotices (listenNotice _ bad).state post = _
    rw [listenNotice_state_malformed ch _ bad hinv1 hh1 hh2 hh3 hcap]

theorem claim_c9_witness :
    (∀ mc : ManagedChannel, mc.add_flags_from_chanserv "zzz" =
      .error (.couldNotParse "zzz")) ∧
    listenNotices { chanserv := some "#c", channels := [("#c", {})] }
        ([] ++ "zzz" :: ["1 foo +A"]) =
      listenNotices { chanserv := some "#c", channels := [("#c", {})] }
        ([] ++ ["1 foo +A"]) :=
  claim_c9_malformed_line_recovery "#c" {} [] ["1 foo +A"] "zzz"
    (by decide) (by decide) (by decide) (by decide)
